import Mathlib

/-!
# Verification of the vote-fetcher reconciliation and summarization core

Shallow embedding of `src/vote_fetcher/senate_votes.py`,
`src/vote_fetcher/house_votes.py` and `src/src/fetch_votes.py`.

Strings are modelled as Lean `String` (lists of Unicode scalar values),
matching Python `str`.  The Python regular-expression operations used by the
source (`re.sub` via `pandas.Series.str.replace`) are translated into
executable character-list functions below, with the exact semantics of the
patterns that appear in the source (`\(.*?\)` where `.` does not match a
newline, and `\s+`).  The third-party `unidecode.unidecode` transliteration
table is embedded as a faithful fragment: ASCII code points pass through
unchanged (as in the library), the Latin-1 letter block is mapped to the
library's outputs, and all other code points fall to the library's default
empty replacement.  Python `str.lower` is embedded for ASCII and the
Latin-1 letter block, which covers every character the fragment can produce.
-/

namespace VoteFetcher

/-- Python whitespace (`str.isspace` / regex `\s` for `str` patterns):
space, `\t`, `\n`, `\r`, `\x0b`, `\x0c`, the file-separator block
`\x1c`–`\x1f`, `\x85`, `\xa0`, and the Unicode space code points. -/
def pyIsSpace (c : Char) : Bool :=
  let v := c.toNat
  v = 32 || (9 ≤ v && v ≤ 13) || (28 ≤ v && v ≤ 31) || v = 133 || v = 160 ||
    v = 5760 || (8192 ≤ v && v ≤ 8202) || v = 8232 || v = 8233 ||
    v = 8239 || v = 8287 || v = 12288

/-- Python `str.lower`, restricted to the code points the embedding uses:
ASCII `A`–`Z` and the Latin-1 uppercase letters `À`–`Þ` (excluding `×`)
map 32 code points up; everything else is fixed. -/
def pyLower (c : Char) : Char :=
  if 65 ≤ c.toNat ∧ c.toNat ≤ 90 then Char.ofNat (c.toNat + 32)
  else if 192 ≤ c.toNat ∧ c.toNat ≤ 222 ∧ c.toNat ≠ 215 then Char.ofNat (c.toNat + 32)
  else c

/-- Fragment of the `unidecode.unidecode` transliteration table: the
Latin-1 letter block with the library's ASCII replacements, and `\xa0`
(non-breaking space) with its space replacement. -/
def uniTable : List (Char × List Char) :=
  [('À', ['A']), ('Á', ['A']), ('Â', ['A']), ('Ã', ['A']), ('Ä', ['A']), ('Å', ['A']),
    ('Æ', ['A', 'E']), ('Ç', ['C']),
    ('È', ['E']), ('É', ['E']), ('Ê', ['E']), ('Ë', ['E']),
    ('Ì', ['I']), ('Í', ['I']), ('Î', ['I']), ('Ï', ['I']),
    ('Ð', ['D']), ('Ñ', ['N']),
    ('Ò', ['O']), ('Ó', ['O']), ('Ô', ['O']), ('Õ', ['O']), ('Ö', ['O']), ('Ø', ['O']),
    ('Ù', ['U']), ('Ú', ['U']), ('Û', ['U']), ('Ü', ['U']),
    ('Ý', ['Y']), ('Þ', ['T', 'h']), ('ß', ['s', 's']),
    ('à', ['a']), ('á', ['a']), ('â', ['a']), ('ã', ['a']), ('ä', ['a']), ('å', ['a']),
    ('æ', ['a', 'e']), ('ç', ['c']),
    ('è', ['e']), ('é', ['e']), ('ê', ['e']), ('ë', ['e']),
    ('ì', ['i']), ('í', ['i']), ('î', ['i']), ('ï', ['i']),
    ('ð', ['d']), ('ñ', ['n']),
    ('ò', ['o']), ('ó', ['o']), ('ô', ['o']), ('õ', ['o']), ('ö', ['o']), ('ø', ['o']),
    ('ù', ['u']), ('ú', ['u']), ('û', ['u']), ('ü', ['u']),
    ('ý', ['y']), ('ÿ', ['y']), ('þ', ['t', 'h']),
    ('\xa0', [' '])]

def uniChar (c : Char) : List Char :=
  if c.toNat < 128 then [c]
  else (((uniTable.find? (fun p => p.1 = c)).map (fun p => p.2)).getD [])

/-- `unidecode` lifted to character lists (the library concatenates the
per-code-point replacements). -/
def uniL : List Char → List Char
  | [] => []
  | c :: rest => uniChar c ++ uniL rest

/-- Python `str.lower` lifted to character lists. -/
def toLowerL (l : List Char) : List Char := l.map pyLower

/-- Helper for `re.sub(r"\(.*?\)", "", s)`: starting just after a `(`,
find the closing `)` of the lazy match.  Returns the suffix after the
first `)` provided no newline intervenes (`.` does not match `\n`),
`none` otherwise. -/
def splitClose : List Char → Option (List Char)
  | [] => none
  | c :: rest =>
    if c = ')' then some rest
    else if c = '\n' then none
    else splitClose rest

/-- `re.sub(r"\(.*?\)", "", s)` (pandas `str.replace(..., regex=True)`,
line 70 of `senate_votes.py`): left-to-right scan, each `(` that is
followed by a `)` with no newline in between opens a match that is deleted
up to that first `)`; scanning resumes after the deleted match.  `fuel` is
an upper bound on the number of scanning steps; it is initialised to the
input length, which always suffices. -/
def rpAux (sepFuel : Nat) (l : List Char) : List Char :=
  match sepFuel, l with
  | _, [] => []
  | 0, l => l
  | fuel + 1, c :: rest =>
    if c = '(' then
      match splitClose rest with
      | some rest2 => rpAux fuel rest2
      | none => c :: rpAux fuel rest
    else c :: rpAux fuel rest

/-- Parenthetical removal, step (a) of the vote-name cleaning chain. -/
def removeParens (l : List Char) : List Char := rpAux l.length l

/-- First half of `re.sub(r"\s+", " ", s)`: every whitespace character
becomes a plain space. -/
def wsmap (l : List Char) : List Char :=
  l.map (fun c => if pyIsSpace c then ' ' else c)

/-- Second half of `re.sub(r"\s+", " ", s)`: adjacent spaces collapse. -/
def squeeze : List Char → List Char
  | [] => []
  | [c] => [c]
  | a :: b :: rest =>
    if a = ' ' && b = ' ' then squeeze (b :: rest)
    else a :: squeeze (b :: rest)

/-- `re.sub(r"\s+", " ", s)` (lines 71 / 80 of `senate_votes.py`). -/
def collapseWs (l : List Char) : List Char := squeeze (wsmap l)

/-- Python `str.strip`, leading part. -/
def dropLeading : List Char → List Char
  | [] => []
  | c :: rest => if pyIsSpace c then dropLeading rest else c :: rest

/-- Python `str.strip`, trailing part. -/
def dropTrailing : List Char → List Char
  | [] => []
  | c :: rest =>
    match dropTrailing rest with
    | [] => if pyIsSpace c then [] else [c]
    | r => c :: r

/-- Python `str.strip` on character lists. -/
def pyStripL (l : List Char) : List Char := dropTrailing (dropLeading l)

/-- Python `str.strip` on strings. -/
def pyStrip (s : String) : String := ⟨pyStripL s.data⟩

/-- The vote-side name normalizer (`cleaned_name`, `senate_votes.py`
lines 68–75): remove parentheticals, collapse whitespace, strip,
lowercase, transliterate diacritics. -/
def normalizeName (s : String) : String :=
  ⟨uniL (toLowerL (pyStripL (collapseWs (removeParens s.data))))⟩

/-- The roster full-name normalizer (`normalized_full_name`, lines 78–84):
identical chain but without parenthetical removal. -/
def normalizeFull (s : String) : String :=
  ⟨uniL (toLowerL (pyStripL (collapseWs s.data)))⟩

/-- The roster last-name normalizer (`normalized_last_name`, lines 85–87):
lowercase then transliterate only. -/
def normalizeLast (s : String) : String :=
  ⟨uniL (toLowerL s.data)⟩

/-! ## Data model (§3 of the spec, from `senate_votes.py`) -/

/-- A Senate roster entry (`fetch_senate_member_list`, lines 22–31). -/
structure Member where
  id : String
  full_name : String
  last_name : String
  first_name : String
  party : String
  state : String
deriving DecidableEq

/-- A scraped vote row (`fetch_senate_vote`, lines 51–59): a raw display
name and an optional vote choice. -/
structure VoteRecord where
  name : String
  vote : Option String
deriving DecidableEq

/-- One row of the enriched (reconciled) table: the originating vote row,
its cleaned name, and the matched roster member (`none` when the row is
unmatched, i.e. when `id` is NaN in the DataFrame). -/
structure EnrichedRow where
  orig : VoteRecord
  cleaned : String
  member : Option Member
deriving DecidableEq

/-- `normalized_full_name` of a member. -/
def nfull (m : Member) : String := normalizeFull m.full_name

/-- `normalized_last_name` of a member. -/
def nlast (m : Member) : String := normalizeLast m.last_name

/-! ## Reconciliation engine (`enrich_with_member_data`, lines 65–118)

A pandas left merge keeps every left row; a left row with `k ≥ 1` key
matches on the right produces `k` output rows (one per matching right
row, in right-frame order), and a left row with no match produces one
row with the right columns NaN. -/

/-- Tier-2 rows for one vote record: exact match of `cleaned_name`
against `normalized_full_name` (the merge at lines 90–96). -/
def tier2Rows (members : List Member) (v : VoteRecord) : List EnrichedRow :=
  let c := normalizeName v.name
  let ms := members.filter (fun m => nfull m = c)
  if ms.isEmpty then [⟨v, c, none⟩] else ms.map (fun m => ⟨v, c, some m⟩)

/-- Tier-3 rows for one still-unmatched row: match of `cleaned_name`
against `normalized_last_name` (the fallback merge at lines 102–109). -/
def fallbackRows (members : List Member) (r : EnrichedRow) : List EnrichedRow :=
  let ms := members.filter (fun m => nlast m = r.cleaned)
  if ms.isEmpty then [r] else ms.map (fun m => ⟨r.orig, r.cleaned, some m⟩)

/-- `enrich_with_member_data`: tier-2 merge, then — when unmatched rows
exist — re-merge exactly the unmatched rows on last name and concatenate
them after the matched rows (lines 98–110). -/
def enrich (votes : List VoteRecord) (members : List Member) : List EnrichedRow :=
  let e1 := votes.flatMap (tier2Rows members)
  let unmatched := e1.filter (fun r => r.member = none)
  if unmatched.isEmpty then e1
  else e1.filter (fun r => ¬ r.member = none) ++ unmatched.flatMap (fallbackRows members)

/-- The rows `enrich` produces for a single vote record (up to the
reordering that moves fallback rows to the end of the frame). -/
def rowsFor (members : List Member) (v : VoteRecord) : List EnrichedRow :=
  (tier2Rows members v).filter (fun r => ¬ r.member = none) ++
    ((tier2Rows members v).filter (fun r => r.member = none)).flatMap (fallbackRows members)

/-! ## Deduplication and summaries (`generate_vote_summary` lines 148–183,
`generate_partisan_summary` lines 186–217) -/

/-- `DataFrame.drop_duplicates(subset=key)`: keep the first row of each
key group.  pandas treats NaN keys as equal, so an `Option`-valued key
models the senate dedup on the nullable `id` column. -/
def dedupByKeyAux {α β : Type} [DecidableEq β] (key : α → β) (seen : List β) :
    List α → List α
  | [] => []
  | r :: rest =>
    if key r ∈ seen then dedupByKeyAux key seen rest
    else r :: dedupByKeyAux key (key r :: seen) rest

/-- First-seen deduplication by key. -/
def dedupByKey {α β : Type} [DecidableEq β] (key : α → β) (l : List α) : List α :=
  dedupByKeyAux key [] l

/-- The dedup key of the senate frame: the (nullable) member id. -/
def rowId (r : EnrichedRow) : Option String := r.member.map (·.id)

/-- The party of a reconciled row (NaN when unmatched). -/
def rowParty (r : EnrichedRow) : Option String := r.member.map (·.party)

/-- `merged_df["id"].value_counts()` as printed in the mismatch branch
(line 159): occurrence counts of the non-null ids of the deduplicated
frame (value ordering abstracted to first-occurrence order). -/
def idCounts (d : List EnrichedRow) : List (String × Nat) :=
  let ids := d.filterMap rowId
  ids.map (fun i => (i, ids.count i))

/-- Result of `generate_vote_summary`: either the early-return warning
path (line 156–160) with the deduplicated total and the printed id
breakdown, or the printed summary (lines 162–183). -/
inductive VoteSummaryOutcome where
  | countMismatch : Nat → List (String × Nat) → VoteSummaryOutcome
  | summary : (total dWithI r yea nay notVoting : Nat) → VoteSummaryOutcome
deriving DecidableEq

/-- `generate_vote_summary` (senate, lines 148–183). -/
def generateVoteSummary (l : List EnrichedRow) : VoteSummaryOutcome :=
  let d := dedupByKey rowId l
  if d.length ≠ 100 then .countMismatch d.length (idCounts d)
  else
    let pc := fun (p : String) => d.countP (fun r => decide (rowParty r = some p))
    let vc := fun (v : String) => d.countP (fun r => decide (r.orig.vote = some v))
    .summary d.length (pc "D" + pc "I") (pc "R") (vc "Yea") (vc "Nay") (vc "Not Voting")

/-- Count of deduplicated records with the given vote choice and a
non-null party: the row total of the pivot table for that choice
(`overall[overall["vote"] == v].iloc[:, 1:].sum(axis=1)`), since
`groupby(["party", "vote"])` drops rows with a NaN party or vote. -/
def pvCount (d : List EnrichedRow) (v : String) : Nat :=
  d.countP (fun r => (rowParty r).isSome && decide (r.orig.vote = some v))

/-- The partisan summary's tallies and prevailing-choice marker. -/
structure PartisanResult where
  yeaTotal : Nat
  nayTotal : Nat
  marked : String
deriving DecidableEq

/-- `generate_partisan_summary` (lines 186–217), reduced to its computed
content.  The `.values[0]` extraction at lines 202–203 raises `IndexError`
when the pivot has no "Yea" (resp. no "Nay") row, i.e. when no
deduplicated record has that choice together with a non-null party;
a raised exception is modelled as `none`. -/
def partisanSummary (l : List EnrichedRow) : Option PartisanResult :=
  let d := dedupByKey rowId l
  let y := pvCount d "Yea"
  let n := pvCount d "Nay"
  if y = 0 then none
  else if n = 0 then none
  else some ⟨y, n, if y > n then "Yea ✓" else "Nay ✓"⟩

/-- Tie-marking of `fetch_overall_summary` (`house_votes.py` lines
119–125): identical comparison with "Yes"/"No" labels. -/
def houseOverallMark (yes no : Nat) : String :=
  if yes > no then "Yes ✓" else "No ✓"

/-! ## House merge (`house_votes.py`) -/

/-- A scraped House roll-call row (`fetch_roll_call_vote`, lines 20–36);
`id` is `None` when the member cell carries no profile link (line 26). -/
structure HVoteRow where
  name : String
  id : Option String
  party : String
  state : String
  vote : String
deriving DecidableEq

/-- A House roster entry as consumed by the merge
(`members_df[["id", "representative", "district"]]`, line 91);
`representative` is `None` when neither name span is found
(`fetch_members_list`, lines 53–58). -/
structure HMember where
  id : String
  representative : Option String
  district : String
deriving DecidableEq

/-- `df["vote"].replace({"Yea": "Yes", "Nay": "No", "Aye": "Yes"})`
(line 38). -/
def voteClean (v : String) : String :=
  if v = "Yea" then "Yes" else if v = "Nay" then "No" else if v = "Aye" then "Yes" else v

/-- `df["party"].str[:1]` (line 39). -/
def partyLetter (p : String) : String := ⟨p.data.take 1⟩

/-- One row of the merged, renamed House table (line 99). -/
structure HOutRow where
  nameCol : String
  representative : String
  state : String
  district : String
  party : String
  vote : String
deriving DecidableEq

/-- `merge_votes_with_members` (lines 84–100): left merge of the vote
rows with the roster on `id`, `combine_first` of the roster name with the
clerk name, `district` NaN-filled with the empty string, final `fillna("")`
restricted to the selected string columns (a no-op for them). -/
def matchingMembers (members : List HMember) : Option String → List HMember
  | none => []
  | some i => members.filter (fun m => m.id = i)

def mergeVotesWithMembers (votes : List HVoteRow) (members : List HMember) :
    List HOutRow :=
  votes.flatMap (fun v =>
    let ms : List HMember := matchingMembers members v.id
    if ms.isEmpty then
      [⟨v.name, v.name, v.state, "", partyLetter v.party, voteClean v.vote⟩]
    else
      ms.map (fun m =>
        ⟨v.name, (m.representative.getD v.name), v.state, m.district,
          partyLetter v.party, voteClean v.vote⟩))

/-- The House console summary (`generate_vote_summary`,
`house_votes.py` lines 136–153): dedup on the `Name` column, then
party and vote tallies; no expected-total check. -/
structure HouseSummary where
  total : Nat
  dems : Nat
  reps : Nat
  inds : Nat
  yes : Nat
  no : Nat
  notVoting : Nat
deriving DecidableEq

/-- `generate_vote_summary` of `house_votes.py`. -/
def houseVoteSummary (l : List HOutRow) : HouseSummary :=
  let d := dedupByKey (fun r => r.nameCol) l
  let pc := fun (p : String) => d.countP (fun r => decide (r.party = p))
  let vc := fun (v : String) => d.countP (fun r => decide (r.vote = v))
  ⟨d.length, pc "D", pc "R", pc "I", vc "Yes", vc "No", vc "Not Voting"⟩

/-! ## The Senate vote-page line parser (`fetch_senate_vote`,
`senate_votes.py` lines 51–59) -/

/-- Python `str.split(sep)` for a non-empty separator: left-to-right scan
for non-overlapping occurrences.  `fuel` bounds the scan and is
initialised to the input length, which always suffices. -/
def splitAux (sep : List Char) : Nat → List Char → List Char → List (List Char)
  | _, acc, [] => [acc.reverse]
  | 0, acc, l => [acc.reverse ++ l]
  | fuel + 1, acc, c :: rest =>
    if sep.isPrefixOf (c :: rest) then
      acc.reverse :: splitAux sep fuel [] (List.drop sep.length (c :: rest))
    else splitAux sep fuel (c :: acc) rest

/-- Python `str.split(sep)` on strings (non-empty `sep`). -/
def pySplit (sep s : String) : List String :=
  (splitAux sep.data s.data.length [] s.data).map (fun l => ⟨l⟩)

/-- The body of the parsing loop (lines 52–59): a blank line yields no
record; otherwise the line splits on `", "`, the name is the stripped
first part and the vote the stripped second part when present. -/
def parseLine (line : String) : Option VoteRecord :=
  if pyStrip line = "" then none
  else
    let parts := pySplit ", " line
    some ⟨pyStrip (parts.headD ""), ((parts.drop 1).head?).map pyStrip⟩

/-- The whole parsing loop over `vote_data.split("\n")`. -/
def parseVoteData (s : String) : List VoteRecord :=
  (pySplit "\n" s).filterMap parseLine

/-! ## Persisted file names -/

/-- Decimal rendering of a natural number (Python `str(int)` for
non-negative values).  `fuel` bounds the digit recursion. -/
def decAux : Nat → Nat → List Char
  | _, 0 => []
  | 0, _ => []
  | fuel + 1, n + 1 => decAux fuel ((n + 1) / 10) ++ [Nat.digitChar ((n + 1) % 10)]

/-- Python `str(n)` for a non-negative integer. -/
def natDecimal (n : Nat) : String :=
  if n = 0 then "0" else ⟨decAux n n⟩

/-- Python `f"{n:0wd}"` for non-negative `n`: left-pad the decimal
rendering with zeros to width `w`. -/
def padZero (w : Nat) (n : Nat) : String :=
  let s := natDecimal n
  ⟨List.replicate (w - s.length) '0' ++ s.data⟩

/-- Roll-call file name of `senate_votes.py` `main` (line 257). -/
def senateVoteFileName (congress session voteNumber : Nat) : String :=
  "senate_vote_" ++ natDecimal congress ++ "_" ++ natDecimal session ++
    "_vote_" ++ padZero 5 voteNumber ++ ".csv"

/-- Roll-call file name of `house_votes.py` `main` (lines 163–166,
the `.csv` variant). -/
def houseVoteFileName (year voteNumber : Nat) : String :=
  "house_vote_" ++ natDecimal year ++ "_vote_" ++ padZero 3 voteNumber ++ ".csv"

/-- Senate file name of `fetch_votes.py` `process_vote` (line 133). -/
def fetchSenateFileName (congress session voteNumber : Nat) : String :=
  "votes/senate_" ++ natDecimal congress ++ "_" ++ natDecimal session ++
    "_vote_" ++ padZero 5 voteNumber ++ ".csv"

/-- House file name of `fetch_votes.py` `process_vote` (line 135). -/
def fetchHouseFileName (year voteNumber : Nat) : String :=
  "votes/house_" ++ natDecimal year ++ "_" ++ padZero 3 voteNumber ++ ".csv"

/-- Modelled from the spec: the naming convention claimed in §6 —
`<chamber>_<congress-or-year>_<session-or-blank>_vote_<zero-padded-vote-number>.csv`
(a blank session contributes nothing). -/
def specNamingConvention (chamber middle session pad : String) : String :=
  chamber ++ "_" ++ middle ++ (if session = "" then "" else "_" ++ session) ++
    "_vote_" ++ pad ++ ".csv"

/-! ## Concrete instances used by counterexamples and witnesses -/

/-- Roster member whose normalized full name is "jane doe". -/
def dupMember1 : Member := ⟨"S1", "Jane Doe", "Doe", "Jane", "D", "CA"⟩

/-- A second, distinct member with the same normalized full name. -/
def dupMember2 : Member := ⟨"S2", "Jane Doe", "Doe", "Jane", "R", "TX"⟩

/-- A vote row whose cleaned name equals both members' normalized full name. -/
def dupVote : VoteRecord := ⟨"Jane Doe", some "Yea"⟩

/-- Roster member "John Smith", last name "Smith". -/
def smithMember1 : Member := ⟨"S3", "John Smith", "Smith", "John", "D", "CA"⟩

/-- Roster member "Ann Smith", same last name "Smith". -/
def smithMember2 : Member := ⟨"S4", "Ann Smith", "Smith", "Ann", "D", "WA"⟩

/-- A vote row whose cleaned name "smith" matches no full name but both
last names. -/
def smithVote : VoteRecord := ⟨"Smith", some "Yea"⟩

/-- A reconciled "Yea" row (member id `S1`). -/
def yeaRow : EnrichedRow := ⟨⟨"A", some "Yea"⟩, "a", some dupMember1⟩

/-- A reconciled "Nay" row (member id `S2`). -/
def nayRow : EnrichedRow := ⟨⟨"B", some "Nay"⟩, "b", some dupMember2⟩

/-- A House roster entry for the merge witness. -/
def hMemberA : HMember := ⟨"M001", some "Doe, Jane", "6th"⟩

/-- A matched House vote row. -/
def hVoteA : HVoteRow := ⟨"Doe", some "M001", "Democratic", "CA", "Yea"⟩

/-- An unmatched House vote row (no profile link). -/
def hVoteB : HVoteRow := ⟨"Roe", none, "Republican", "TX", "Nay"⟩

/-! ## Normal-form predicates for the idempotence analysis of the
name normalizer -/

/-- Goodness of a single output character of the transliteration table:
ASCII, not whitespace, fixed by lowercasing. -/
def uniGoodChar (e : Char) : Bool :=
  decide (e.toNat < 128) && !pyIsSpace e && decide (pyLower e = e)

/-- A character whose transliteration is a non-empty list of good
characters; such characters cannot break idempotence of the cleaning
chain. -/
def uniGood (d : Char) : Bool :=
  !(uniChar d).isEmpty && (uniChar d).all uniGoodChar

/-- Every whitespace character of the list is a plain space. -/
def onlyPlainWs (l : List Char) : Prop := ∀ c ∈ l, pyIsSpace c = true → c = ' '

/-- Every character is fixed by lowercasing. -/
def allLower (l : List Char) : Prop := ∀ c ∈ l, pyLower c = c

/-- Every character is ASCII. -/
def allAscii (l : List Char) : Prop := ∀ c ∈ l, c.toNat < 128

/-- No two adjacent spaces. -/
def noAdj : List Char → Prop
  | a :: b :: rest => ¬(a = ' ' ∧ b = ' ') ∧ noAdj (b :: rest)
  | _ => True

/-- The first character, when present, is not whitespace. -/
def noLeadWs : List Char → Prop
  | [] => True
  | c :: _ => pyIsSpace c = false

/-- The last character, when present, is not whitespace. -/
def noTrailWs : List Char → Prop
  | [] => True
  | [c] => pyIsSpace c = false
  | _ :: rest => noTrailWs rest

/-- No `(` is followed (anywhere later) by a `)` — equivalently, the
pattern of the parenthetical-removal regex has no match. -/
def noPair : List Char → Prop
  | [] => True
  | c :: rest => if c = '(' then ')' ∉ rest else noPair rest

/-! ## Helper lemmas -/

theorem dedupByKeyAux_idem {α β : Type} [DecidableEq β] (key : α → β) :
    ∀ (l : List α) (seen : List β),
      dedupByKeyAux key seen (dedupByKeyAux key seen l) = dedupByKeyAux key seen l
  | [], _ => rfl
  | r :: rest, seen => by
    by_cases h : key r ∈ seen
    · simp only [dedupByKeyAux, if_pos h]
      exact dedupByKeyAux_idem key rest seen
    · simp only [dedupByKeyAux, if_neg h]
      rw [dedupByKeyAux_idem key rest (key r :: seen)]

theorem dedupByKey_idem {α β : Type} [DecidableEq β] (key : α → β) (l : List α) :
    dedupByKey key (dedupByKey key l) = dedupByKey key l :=
  dedupByKeyAux_idem key l []

theorem decAux_length_le : ∀ (fuel n k : Nat), n ≤ fuel → n < 10 ^ k →
    (decAux fuel n).length ≤ k
  | _, 0, _, _, _ => by simp [decAux]
  | 0, n + 1, _, hf, _ => absurd hf (by omega)
  | fuel + 1, n + 1, k, hf, hk => by
    match k with
    | 0 => simp at hk
    | k + 1 =>
      have hdiv : (n + 1) / 10 < 10 ^ k := by
        rw [Nat.div_lt_iff_lt_mul (by norm_num)]
        calc n + 1 < 10 ^ (k + 1) := hk
          _ = 10 ^ k * 10 := by ring
      have hfuel : (n + 1) / 10 ≤ fuel := by
        have := Nat.div_lt_self (Nat.succ_pos n) (by norm_num : 1 < 10)
        omega
      have ih := decAux_length_le fuel ((n + 1) / 10) k hfuel hdiv
      simp only [decAux, List.length_append, List.length_cons, List.length_nil]
      omega

theorem natDecimal_length_le {n k : Nat} (hk : 1 ≤ k) (h : n < 10 ^ k) :
    (natDecimal n).length ≤ k := by
  unfold natDecimal
  split
  · simpa using hk
  · exact decAux_length_le n n k (Nat.le_refl n) h

theorem padZero_length {w n : Nat} (h : (natDecimal n).length ≤ w) :
    (padZero w n).length = w := by
  show (List.replicate (w - (natDecimal n).length) '0' ++ (natDecimal n).data).length = w
  have : (natDecimal n).data.length = (natDecimal n).length := rfl
  simp only [List.length_append, List.length_replicate, this]
  omega

theorem natDecimal_ne_empty (n : Nat) : natDecimal n ≠ "" := by
  unfold natDecimal
  split
  · decide
  · next hn =>
    intro h
    have hd : decAux n n = [] := congrArg String.data h
    obtain ⟨m, rfl⟩ : ∃ m, n = m + 1 := ⟨n - 1, by omega⟩
    simp [decAux] at hd

theorem filterFlatMap {α β : Type} (p : β → Bool) (f : α → List β) :
    ∀ l : List α, (l.flatMap f).filter p = l.flatMap (fun x => (f x).filter p)
  | [] => rfl
  | x :: l => by
    simp only [List.flatMap_cons, List.filter_append, filterFlatMap p f l]

theorem flatMapAppendPerm {α β : Type} (f g : α → List β) :
    ∀ l : List α, ((l.flatMap f) ++ (l.flatMap g)).Perm (l.flatMap (fun x => f x ++ g x))
  | [] => by simp
  | x :: l => by
    simp only [List.flatMap_cons]
    have h1 : ((f x ++ l.flatMap f) ++ (g x ++ l.flatMap g)).Perm
        (f x ++ (g x ++ (l.flatMap f ++ l.flatMap g))) := by
      simp only [List.append_assoc]
      refine List.Perm.append_left (f x) ?_
      simp only [← List.append_assoc]
      exact List.Perm.append_right (l.flatMap g) List.perm_append_comm
    refine h1.trans ?_
    simp only [List.append_assoc]
    exact List.Perm.append_left (f x) (List.Perm.append_left (g x) (flatMapAppendPerm f g l))

/-- Every tier-2 row of a vote record carries that record. -/
theorem tier2Rows_orig (members : List Member) (v : VoteRecord) :
    ∀ r ∈ tier2Rows members v, r.orig = v ∧ r.cleaned = normalizeName v.name := by
  intro r hr
  simp only [tier2Rows] at hr
  split at hr
  · simp at hr
    subst hr
    exact ⟨rfl, rfl⟩
  · obtain ⟨m, _, rfl⟩ := List.mem_map.mp hr
    exact ⟨rfl, rfl⟩

/-- The matched-row part of a vote record's tier-2 rows. -/
theorem tier2Rows_filter_matched (members : List Member) (v : VoteRecord) :
    (tier2Rows members v).filter (fun r => ¬ r.member = none) =
      if (members.filter (fun m => nfull m = normalizeName v.name)).isEmpty
      then [] else tier2Rows members v := by
  simp only [tier2Rows]
  split
  · simp
  · rw [List.filter_eq_self]
    intro r hr
    obtain ⟨m, _, rfl⟩ := List.mem_map.mp hr
    simp

/-- The unmatched-row part of a vote record's tier-2 rows. -/
theorem tier2Rows_filter_unmatched (members : List Member) (v : VoteRecord) :
    (tier2Rows members v).filter (fun r => r.member = none) =
      if (members.filter (fun m => nfull m = normalizeName v.name)).isEmpty
      then [⟨v, normalizeName v.name, none⟩] else [] := by
  simp only [tier2Rows]
  split
  · simp
  · rw [List.filter_eq_nil_iff]
    intro r hr
    obtain ⟨m, _, rfl⟩ := List.mem_map.mp hr
    simp

/-- `enrich` is, up to the reordering that appends fallback rows at the
end of the frame, the per-record expansion `rowsFor`. -/
theorem enrich_perm_rowsFor (votes : List VoteRecord) (members : List Member) :
    (enrich votes members).Perm (votes.flatMap (rowsFor members)) := by
  simp only [enrich]
  split
  · next hu =>
    rw [List.isEmpty_iff, filterFlatMap, List.flatMap_eq_nil_iff] at hu
    have he : votes.flatMap (rowsFor members) = votes.flatMap (tier2Rows members) := by
      refine List.flatMap_congr ?_
      intro v hv
      have h1 : (tier2Rows members v).filter (fun r => r.member = none) = [] := hu v hv
      have h2 := tier2Rows_filter_unmatched members v
      rw [h1] at h2
      by_cases hem : (members.filter (fun m => nfull m = normalizeName v.name)).isEmpty
      · rw [if_pos hem] at h2
        exact absurd h2.symm (by simp)
      · unfold rowsFor
        rw [tier2Rows_filter_matched, if_neg hem, h1]
        simp
    rw [he]
  · rw [filterFlatMap, filterFlatMap, List.flatMap_assoc]
    exact flatMapAppendPerm _ _ votes

/-- Fallback rows keep the underlying vote record. -/
theorem fallbackRows_orig (members : List Member) (r : EnrichedRow) :
    ∀ x ∈ fallbackRows members r, x.orig = r.orig := by
  intro x hx
  simp only [fallbackRows] at hx
  split at hx
  · simp at hx
    subst hx
    rfl
  · obtain ⟨m, _, rfl⟩ := List.mem_map.mp hx
    rfl

/-- Fallback rows are never empty. -/
theorem fallbackRows_ne_nil (members : List Member) (r : EnrichedRow) :
    fallbackRows members r ≠ [] := by
  simp only [fallbackRows]
  split
  · simp
  · next h =>
    rw [List.isEmpty_iff] at h
    simp only [ne_eq, List.map_eq_nil_iff]
    exact h

/-- Every row `rowsFor` produces for a record carries that record. -/
theorem rowsFor_orig (members : List Member) (v : VoteRecord) :
    ∀ x ∈ rowsFor members v, x.orig = v := by
  intro x hx
  unfold rowsFor at hx
  rcases List.mem_append.mp hx with h | h
  · exact (tier2Rows_orig members v x (List.mem_filter.mp h).1).1
  · obtain ⟨r, hr, hx2⟩ := List.mem_flatMap.mp h
    have hro := (tier2Rows_orig members v r (List.mem_filter.mp hr).1).1
    rw [fallbackRows_orig members r x hx2, hro]

/-- Every vote record produces at least one reconciled row. -/
theorem rowsFor_ne_nil (members : List Member) (v : VoteRecord) :
    rowsFor members v ≠ [] := by
  unfold rowsFor
  rw [tier2Rows_filter_matched, tier2Rows_filter_unmatched]
  by_cases hem : (members.filter (fun m => nfull m = normalizeName v.name)).isEmpty
  · rw [if_pos hem, if_pos hem]
    simp only [List.nil_append, List.flatMap_cons, List.flatMap_nil, List.append_nil]
    exact fallbackRows_ne_nil members _
  · rw [if_neg hem, if_neg hem]
    simp only [List.flatMap_nil, List.append_nil]
    simp only [tier2Rows]
    rw [if_neg hem]
    rw [List.isEmpty_iff] at hem
    simp only [ne_eq, List.map_eq_nil_iff]
    exact hem

/-- In a list whose `f`-values are pairwise distinct, at most one element
has a given `f`-value. -/
theorem filter_pairwise_length {α : Type} (f : α → String) (c : String) :
    ∀ l : List α, l.Pairwise (fun a b => f a ≠ f b) →
      (l.filter (fun m => f m = c)).length ≤ 1
  | [], _ => by simp
  | m :: ms, h => by
    rw [List.pairwise_cons] at h
    rw [List.filter_cons]
    by_cases hm : f m = c
    · rw [if_pos (by simpa using hm)]
      have hrest : ms.filter (fun x => f x = c) = [] := by
        rw [List.filter_eq_nil_iff]
        intro a ha
        simp only [decide_eq_true_eq]
        intro hac
        exact h.1 a ha (hm.trans hac.symm)
      simp [hrest]
    · rw [if_neg (by simpa using hm)]
      exact filter_pairwise_length f c ms h.2

/-- Lists of length at most one. -/
theorem lenLeOne {α : Type} : ∀ l : List α, l.length ≤ 1 → l = [] ∨ ∃ x, l = [x]
  | [], _ => Or.inl rfl
  | [x], _ => Or.inr ⟨x, rfl⟩
  | _ :: _ :: _, h => by simp at h

/-- Under pairwise-distinct normalized full and last names, every vote
record produces exactly one reconciled row, carrying that record. -/
theorem rowsFor_singleton (members : List Member) (v : VoteRecord)
    (hfull : members.Pairwise (fun a b => nfull a ≠ nfull b))
    (hlast : members.Pairwise (fun a b => nlast a ≠ nlast b)) :
    ∃ r, rowsFor members v = [r] ∧ r.orig = v := by
  have hcF := filter_pairwise_length nfull (normalizeName v.name) members hfull
  have hcL := filter_pairwise_length nlast (normalizeName v.name) members hlast
  unfold rowsFor
  rw [tier2Rows_filter_matched, tier2Rows_filter_unmatched]
  rcases lenLeOne _ hcF with hF | ⟨m, hF⟩
  · have hem : (members.filter (fun m => nfull m = normalizeName v.name)).isEmpty = true := by
      rw [hF]
      rfl
    rw [if_pos hem, if_pos hem]
    simp only [List.nil_append, List.flatMap_cons, List.flatMap_nil, List.append_nil]
    have hfb : fallbackRows members ⟨v, normalizeName v.name, none⟩ =
        if (members.filter (fun m => nlast m = normalizeName v.name)).isEmpty
        then [⟨v, normalizeName v.name, none⟩]
        else (members.filter (fun m => nlast m = normalizeName v.name)).map
          (fun m => ⟨v, normalizeName v.name, some m⟩) := rfl
    rw [hfb]
    rcases lenLeOne _ hcL with hL | ⟨m, hL⟩
    · rw [hL]
      exact ⟨_, rfl, rfl⟩
    · rw [hL]
      simp only [List.isEmpty_cons, if_false, List.map_cons, List.map_nil]
      exact ⟨_, rfl, rfl⟩
  · have hem : ¬ (members.filter (fun m => nfull m = normalizeName v.name)).isEmpty = true := by
      rw [hF]
      simp
    rw [if_neg hem, if_neg hem]
    simp only [List.flatMap_nil, List.append_nil]
    simp only [tier2Rows]
    rw [if_neg hem, hF]
    simp only [List.map_cons, List.map_nil]
    exact ⟨_, rfl, rfl⟩

/-! ## Claims -/

/-- C1 (counterexample): two roster members with the same normalized full
name "jane doe" make the single vote record "Jane Doe" yield two
reconciled records, falsifying "each VoteRecord yields exactly one
ReconciledRecord ... no record is duplicated, even when several roster
Members have equal normalized names". -/
theorem enrich_duplication_cex :
    (enrich [dupVote] [dupMember1, dupMember2]).map (fun r => r.orig) =
      [dupVote, dupVote] := by decide

/-- C1 (amended): `enrich` is total on the vote side — every input
VoteRecord appears among the outputs (none dropped) — and when the
roster's normalized full names and normalized last names are pairwise
distinct, the outputs' underlying records are exactly the input records
(each yields exactly one, up to the unmatched-rows-last reordering of the
frame); with colliding normalized names a record is instead duplicated
once per matching member. -/
theorem enrich_total_and_exact (votes : List VoteRecord) (members : List Member) :
    (∀ v ∈ votes, v ∈ (enrich votes members).map (fun r => r.orig)) ∧
      (members.Pairwise (fun a b => nfull a ≠ nfull b) →
        members.Pairwise (fun a b => nlast a ≠ nlast b) →
        ((enrich votes members).map (fun r => r.orig)).Perm votes) := by
  constructor
  · intro v hv
    have hperm := enrich_perm_rowsFor votes members
    have hmem : v ∈ (votes.flatMap (rowsFor members)).map (fun r => r.orig) := by
      rcases hne : rowsFor members v with _ | ⟨r, rest⟩
      · exact absurd hne (rowsFor_ne_nil members v)
      · have hrmem : r ∈ rowsFor members v := by
          rw [hne]
          exact List.mem_cons_self r rest
        refine List.mem_map.mpr ⟨r, ?_, rowsFor_orig members v r hrmem⟩
        exact List.mem_flatMap.mpr ⟨v, hv, hrmem⟩
    exact ((hperm.map (fun r => r.orig)).mem_iff).mpr hmem
  · intro hfull hlast
    have heq : (votes.flatMap (rowsFor members)).map (fun r => r.orig) = votes := by
      induction votes with
      | nil => rfl
      | cons v vs ih =>
        obtain ⟨r, hr, hro⟩ := rowsFor_singleton members v hfull hlast
        simp only [List.flatMap_cons, List.map_append, hr, List.map_cons, List.map_nil, hro,
          List.singleton_append, List.cons.injEq, true_and]
        exact ih
    have hm := (enrich_perm_rowsFor votes members).map (fun r => r.orig)
    rw [heq] at hm
    exact hm

/-- Witness for C1: a one-record, one-member run with distinct names. -/
theorem enrich_total_witness :
    dupVote ∈ (enrich [dupVote] [smithMember1]).map (fun r => r.orig) ∧
      ((enrich [dupVote] [smithMember1]).map (fun r => r.orig)).Perm [dupVote] :=
  ⟨(enrich_total_and_exact [dupVote] [smithMember1]).1 dupVote (by decide),
    (enrich_total_and_exact [dupVote] [smithMember1]).2 (by decide) (by decide)⟩

/-- C2 (counterexample): with two unmatched-at-tier-2 members sharing the
normalized last name "smith", the vote record "Smith" is matched to both
members (and duplicated), not left unmatched, falsifying "a VoteRecord
whose normalized raw_name equals the normalized last_name of two or more
currently-unmatched Members is left unmatched". -/
theorem enrich_ambiguous_cex :
    enrich [smithVote] [smithMember1, smithMember2] =
      [⟨smithVote, "smith", some smithMember1⟩,
        ⟨smithVote, "smith", some smithMember2⟩] := by decide

/-- C2 (amended): in the tier-3 fallback of a record with no tier-2
match, the record is joined against the normalized last names of the
whole roster (not only currently-unmatched members): it is left unmatched
exactly when no member shares the last name, and otherwise yields one
matched row per sharing member — ambiguity duplicates the record instead
of leaving it unmatched. -/
theorem enrich_fallback_matches_all (v : VoteRecord) (members : List Member)
    (h : members.filter (fun m => nfull m = normalizeName v.name) = []) :
    enrich [v] members =
      if (members.filter (fun m => nlast m = normalizeName v.name)).isEmpty
      then [⟨v, normalizeName v.name, none⟩]
      else (members.filter (fun m => nlast m = normalizeName v.name)).map
        (fun m => ⟨v, normalizeName v.name, some m⟩) := by
  have hem : (members.filter (fun m => nfull m = normalizeName v.name)).isEmpty = true := by
    rw [h]
    rfl
  have ht2 : tier2Rows members v = [⟨v, normalizeName v.name, none⟩] := by
    simp only [tier2Rows]
    rw [if_pos hem]
  have hfb : fallbackRows members ⟨v, normalizeName v.name, none⟩ =
      if (members.filter (fun m => nlast m = normalizeName v.name)).isEmpty
      then [⟨v, normalizeName v.name, none⟩]
      else (members.filter (fun m => nlast m = normalizeName v.name)).map
        (fun m => ⟨v, normalizeName v.name, some m⟩) := rfl
  simp only [enrich, List.flatMap_cons, List.flatMap_nil, List.append_nil, ht2]
  simp only [List.filter_cons, List.filter_nil, decide_True, decide_False,
    Option.some.injEq, if_true, if_false]
  simp [hfb]

/-- Witness for C2: the ambiguous-"Smith" run, via the amended theorem. -/
theorem enrich_fallback_witness :
    enrich [smithVote] [smithMember1, smithMember2] =
      [smithMember1, smithMember2].map
        (fun m => ⟨smithVote, "smith", some m⟩) := by
  rw [enrich_fallback_matches_all smithVote [smithMember1, smithMember2] (by decide)]
  decide

/-- C9: in the House merge every output row stems from a vote row; its
`Representative` is the roster member's name when the row's id matches a
roster entry (with a non-null roster name) and the scraped clerk name
otherwise, its `District` is the member's district when matched and the
empty string otherwise, and the remaining fields are the vote row's
fields — in particular no field of the merged table is null (all fields
are total strings). -/
theorem houseMerge_no_nulls (votes : List HVoteRow) (members : List HMember)
    (hm : ∀ m ∈ members, m.representative ≠ none) :
    ∀ r ∈ mergeVotesWithMembers votes members,
      ∃ v ∈ votes, r.nameCol = v.name ∧ r.state = v.state ∧
        r.party = partyLetter v.party ∧ r.vote = voteClean v.vote ∧
        ((∃ m ∈ members, v.id = some m.id ∧ some r.representative = m.representative ∧
            r.district = m.district) ∨
          ((∀ m ∈ members, v.id ≠ some m.id) ∧ r.representative = v.name ∧
            r.district = "")) := by
  intro r hr
  obtain ⟨v, hv, hr2⟩ := List.mem_flatMap.mp hr
  refine ⟨v, hv, ?_⟩
  rcases hid : v.id with _ | i
  · rw [hid] at hr2
    simp only [matchingMembers, List.isEmpty_nil, if_true, List.mem_singleton] at hr2
    subst hr2
    refine ⟨rfl, rfl, rfl, rfl, Or.inr ⟨?_, rfl, rfl⟩⟩
    intro m _ h
    exact Option.noConfusion h
  · rw [hid] at hr2
    simp only [matchingMembers] at hr2
    by_cases hms : (members.filter (fun m => m.id = i)).isEmpty
    · rw [List.isEmpty_iff] at hms
      rw [hms] at hr2
      simp only [List.isEmpty_nil, if_true, List.mem_singleton] at hr2
      subst hr2
      refine ⟨rfl, rfl, rfl, rfl, Or.inr ⟨?_, rfl, rfl⟩⟩
      intro m hmem h
      have hmi : m.id = i := (Option.some_inj.mp h).symm
      have hmf : m ∈ members.filter (fun m => m.id = i) :=
        List.mem_filter.mpr ⟨hmem, by simpa using hmi⟩
      rw [hms] at hmf
      exact absurd hmf (List.not_mem_nil m)
    · rw [if_neg hms] at hr2
      obtain ⟨m, hmem, rfl⟩ := List.mem_map.mp hr2
      have hmem2 := List.mem_filter.mp hmem
      have hmid : m.id = i := by simpa using hmem2.2
      rcases hrep : m.representative with _ | rep
      · exact absurd hrep (hm m hmem2.1)
      · refine ⟨rfl, rfl, rfl, rfl, Or.inl ⟨m, hmem2.1, by rw [hmid], ?_, rfl⟩⟩
        simp [hrep]

/-- Witness for C9: one matched and one unmatched vote row. -/
theorem houseMerge_no_nulls_witness :
    (mergeVotesWithMembers [hVoteA, hVoteB] [hMemberA] =
      [⟨"Doe", "Doe, Jane", "CA", "6th", "D", "Yes"⟩,
        ⟨"Roe", "Roe", "TX", "", "R", "No"⟩]) ∧
      (∃ v ∈ [hVoteA, hVoteB],
        (⟨"Roe", "Roe", "TX", "", "R", "No"⟩ : HOutRow).nameCol = v.name ∧
        (⟨"Roe", "Roe", "TX", "", "R", "No"⟩ : HOutRow).state = v.state ∧
        (⟨"Roe", "Roe", "TX", "", "R", "No"⟩ : HOutRow).party = partyLetter v.party ∧
        (⟨"Roe", "Roe", "TX", "", "R", "No"⟩ : HOutRow).vote = voteClean v.vote ∧
        ((∃ m ∈ [hMemberA], v.id = some m.id ∧
            some (⟨"Roe", "Roe", "TX", "", "R", "No"⟩ : HOutRow).representative =
              m.representative ∧
            (⟨"Roe", "Roe", "TX", "", "R", "No"⟩ : HOutRow).district = m.district) ∨
          ((∀ m ∈ [hMemberA], v.id ≠ some m.id) ∧
            (⟨"Roe", "Roe", "TX", "", "R", "No"⟩ : HOutRow).representative = v.name ∧
            (⟨"Roe", "Roe", "TX", "", "R", "No"⟩ : HOutRow).district = ""))) :=
  ⟨by decide,
    houseMerge_no_nulls [hVoteA, hVoteB] [hMemberA] (by decide)
      ⟨"Roe", "Roe", "TX", "", "R", "No"⟩ (by decide)⟩

theorem splitAux_ne_nil (sep : List Char) :
    ∀ (fuel : Nat) (acc l : List Char), splitAux sep fuel acc l ≠ [] := by
  intro fuel
  induction fuel with
  | zero =>
    intro acc l
    cases l <;> simp [splitAux]
  | succ fuel ih =>
    intro acc l
    cases l with
    | nil => simp [splitAux]
    | cons c rest =>
      simp only [splitAux]
      split
      · simp
      · exact ih (c :: acc) rest

theorem splitAux_single (sep : List Char) :
    ∀ (fuel : Nat) (acc l : List Char), (splitAux sep fuel acc l).length = 1 →
      splitAux sep fuel acc l = [acc.reverse ++ l] := by
  intro fuel
  induction fuel with
  | zero =>
    intro acc l _
    cases l <;> simp [splitAux]
  | succ fuel ih =>
    intro acc l hlen
    cases l with
    | nil => simp [splitAux]
    | cons c rest =>
      simp only [splitAux] at hlen ⊢
      split at hlen
      · next hpre =>
        exfalso
        simp only [List.length_cons] at hlen
        refine splitAux_ne_nil sep fuel [] (List.drop sep.length (c :: rest)) ?_
        refine List.length_eq_zero.mp ?_
        omega
      · next hpre =>
        rw [if_neg hpre]
        rw [ih (c :: acc) rest hlen]
        simp

/-- A line without an occurrence of the separator splits into itself. -/
theorem pySplit_single (sep line : String) (h : (pySplit sep line).length = 1) :
    pySplit sep line = [line] := by
  unfold pySplit at h ⊢
  rw [List.length_map] at h
  rw [splitAux_single sep.data line.data.length [] line.data h]
  rfl

theorem length_filterMap_eq_countP {α β : Type} (f : α → Option β) :
    ∀ l : List α, (l.filterMap f).length = l.countP (fun x => (f x).isSome)
  | [] => rfl
  | x :: l => by
    cases hfx : f x <;>
      simp [List.filterMap_cons, hfx, List.countP_cons,
        length_filterMap_eq_countP f l]

/-- C10: the line parser is total — the records are in bijection with the
non-blank lines of the page text (one record per non-blank line), a
non-blank line with no `", "` separator parses to a record whose name is
the whole stripped line and whose choice is null (no exception), and a
blank line yields no record. -/
theorem parseVoteData_total (s line : String) :
    (parseVoteData s).length =
        (pySplit "\n" s).countP (fun l => !(decide (pyStrip l = ""))) ∧
      (pyStrip line ≠ "" → (pySplit ", " line).length = 1 →
        parseLine line = some ⟨pyStrip line, none⟩) ∧
      (pyStrip line = "" → parseLine line = none) := by
  refine ⟨?_, ?_, ?_⟩
  · unfold parseVoteData
    rw [length_filterMap_eq_countP]
    have hpred : (fun x => (parseLine x).isSome) =
        (fun l => !(decide (pyStrip l = ""))) := by
      funext x
      unfold parseLine
      split
      · next h => simp [h]
      · next h => simp [h]
    rw [hpred]
  · intro h1 h2
    have hsplit := pySplit_single ", " line h2
    unfold parseLine
    rw [if_neg h1, hsplit]
    rfl
  · intro h
    unfold parseLine
    rw [if_pos h]

/-- Witness for C10: a two-record page with a blank line, and a line with
no separator. -/
theorem parseVoteData_total_witness :
    (parseVoteData "Alpha, Yea\n\nBeta").length = 2 ∧
      parseLine "NoSeparator" = some ⟨"NoSeparator", none⟩ :=
  ⟨by rw [(parseVoteData_total "Alpha, Yea\n\nBeta" "NoSeparator").1]; decide,
    by
      have h := (parseVoteData_total "Alpha, Yea\n\nBeta" "NoSeparator").2.1
        (by decide) (by decide)
      rw [h]
      decide⟩

/-- C4: whenever the partisan summary is produced and the Yea-equivalent
total equals the Nay-equivalent total, the prevailing-choice marker goes
to the "Nay" side (senate) resp. the "No" side (house): a fixed tie-break
favoring the negative outcome. -/
theorem tieBreak_marks_nay (l : List EnrichedRow) (r : PartisanResult)
    (h1 : partisanSummary l = some r) (h2 : r.yeaTotal = r.nayTotal) :
    r.marked = "Nay ✓" ∧ houseOverallMark r.yeaTotal r.nayTotal = "No ✓" := by
  simp only [partisanSummary] at h1
  split at h1
  · exact absurd h1 (by simp)
  · split at h1
    · exact absurd h1 (by simp)
    · have hr := (Option.some_inj.mp h1).symm
      subst hr
      simp only [PartisanResult.mk.injEq] at h2 ⊢
      constructor
      · simp only [h2, gt_iff_lt, lt_self_iff_false, if_false]
      · unfold houseOverallMark
        simp only [h2, gt_iff_lt, lt_self_iff_false, if_false]

/-- Witness for C4: a one-Yea-one-Nay tie produces the summary and marks
the "Nay" side. -/
theorem tieBreak_marks_nay_witness :
    partisanSummary [yeaRow, nayRow] = some ⟨1, 1, "Nay ✓"⟩ ∧
      (⟨1, 1, "Nay ✓"⟩ : PartisanResult).marked = "Nay ✓" :=
  ⟨by decide, (tieBreak_marks_nay [yeaRow, nayRow] ⟨1, 1, "Nay ✓"⟩ (by decide) rfl).1⟩

/-- C5 (counterexample): on the empty record list the partisan summarizer
raises (modelled `none`) instead of returning a summary with zero counts,
falsifying "summarize ... returns a Summary ... and computes the
prevailing side without crashing" on empty input. -/
theorem summarize_empty_cex : partisanSummary ([] : List EnrichedRow) = none := by decide

/-- C5 (amended): on the empty list the vote summarizer returns the
count-mismatch warning outcome (total 0) without raising, and the partisan
summarizer returns a summary exactly when some deduplicated record has a
"Yea" choice with a known party and some record has a "Nay" choice with a
known party — in particular never on empty input. -/
theorem summarize_empty_amended :
    generateVoteSummary ([] : List EnrichedRow) = .countMismatch 0 [] ∧
      ∀ l : List EnrichedRow, (partisanSummary l).isSome ↔
        (0 < pvCount (dedupByKey rowId l) "Yea" ∧ 0 < pvCount (dedupByKey rowId l) "Nay") := by
  refine ⟨by decide, fun l => ?_⟩
  simp only [partisanSummary]
  split
  · simp_all
  · split
    · simp_all
    · simp_all
      omega

/-- C6 (counterexample): a deduplicated total of 1 (≠ 100) makes
`generate_vote_summary` return the warning outcome only — the per-party
and per-choice summary is suppressed, falsifying "still returns the full
Summary". -/
theorem countMismatch_cex :
    generateVoteSummary [yeaRow] = .countMismatch 1 [("S1", 1)] := by decide

/-- C6 (amended): whenever the deduplicated record count differs from the
expected 100, `generate_vote_summary` emits the CountMismatch warning with
the id-occurrence breakdown of the deduplicated frame and returns early,
suppressing the party/choice summary (the run itself continues). -/
theorem countMismatch_warns_and_suppresses (l : List EnrichedRow)
    (h : (dedupByKey rowId l).length ≠ 100) :
    generateVoteSummary l =
      .countMismatch (dedupByKey rowId l).length (idCounts (dedupByKey rowId l)) := by
  unfold generateVoteSummary
  simp only [if_pos h]

/-- Witness for C6: a single-row frame (count 1 ≠ 100). -/
theorem countMismatch_warns_witness :
    generateVoteSummary [nayRow] = .countMismatch 1 [("S2", 1)] := by
  have := countMismatch_warns_and_suppresses [nayRow] (by decide)
  rw [this]
  decide

/-- C7: first-seen deduplication by id is idempotent, hence running either
summarizer on an already-deduplicated list yields the same result as on
the original list; likewise for the House summary deduplicated by name. -/
theorem dedup_idempotent_summaries (l : List EnrichedRow) (lh : List HOutRow) :
    generateVoteSummary (dedupByKey rowId l) = generateVoteSummary l ∧
      partisanSummary (dedupByKey rowId l) = partisanSummary l ∧
      houseVoteSummary (dedupByKey (fun r => r.nameCol) lh) = houseVoteSummary lh := by
  refine ⟨?_, ?_, ?_⟩
  · unfold generateVoteSummary
    rw [dedupByKey_idem]
  · unfold partisanSummary
    rw [dedupByKey_idem]
  · unfold houseVoteSummary
    rw [dedupByKey_idem]

/-- C8 (counterexample): the senate script's roll-call file name has the
prefix `senate_vote_`, not the claimed `<chamber>_` = `senate_`, and the
combined script's house file name omits the `_vote_` token entirely, so
the claimed convention does not hold of every run. -/
theorem fileName_convention_cex :
    senateVoteFileName 119 1 15 ≠
        specNamingConvention "senate" (natDecimal 119) (natDecimal 1) (padZero 5 15) ∧
      fetchHouseFileName 2025 15 ≠
        "votes/" ++ specNamingConvention "house" (natDecimal 2025) "" (padZero 3 15) := by
  constructor
  · decide
  · decide

/-- C8 (amended): the per-chamber scripts name roll-call files
`senate_vote_<congress>_<session>_vote_<pad5>.csv` and
`house_vote_<year>_vote_<pad3>.csv` (chamber slot `<chamber>_vote`), the
combined script uses `votes/senate_<congress>_<session>_vote_<pad5>.csv`
and `votes/house_<year>_<pad3>.csv` (no `_vote_` token for the house); the
vote number is zero-padded to exactly 5 digits (senate) resp. 3 digits
(house) whenever it fits. -/
theorem fileNames_amended (c s v y : Nat) (hv : v < 100000) (hv3 : v < 1000) :
    senateVoteFileName c s v =
        specNamingConvention "senate_vote" (natDecimal c) (natDecimal s) (padZero 5 v) ∧
      houseVoteFileName y v =
        specNamingConvention "house_vote" (natDecimal y) "" (padZero 3 v) ∧
      fetchSenateFileName c s v =
        "votes/" ++ specNamingConvention "senate" (natDecimal c) (natDecimal s) (padZero 5 v) ∧
      fetchHouseFileName y v =
        "votes/house_" ++ natDecimal y ++ "_" ++ padZero 3 v ++ ".csv" ∧
      (padZero 5 v).length = 5 ∧ (padZero 3 v).length = 3 := by
  have h5 : (natDecimal v).length ≤ 5 := by
    refine natDecimal_length_le (by norm_num) ?_
    have : (10 : Nat) ^ 5 = 100000 := by norm_num
    omega
  have h3 : (natDecimal v).length ≤ 3 := by
    refine natDecimal_length_le (by norm_num) ?_
    have : (10 : Nat) ^ 3 = 1000 := by norm_num
    omega
  refine ⟨?_, ?_, ?_, rfl, padZero_length h5, padZero_length h3⟩
  · unfold senateVoteFileName specNamingConvention
    rw [if_neg (natDecimal_ne_empty s)]
    apply congrArg String.mk
    simp [String.data_append]
  · unfold houseVoteFileName specNamingConvention
    rw [if_pos rfl]
    apply congrArg String.mk
    simp [String.data_append]
  · unfold fetchSenateFileName specNamingConvention
    rw [if_neg (natDecimal_ne_empty s)]
    apply congrArg String.mk
    simp [String.data_append]

/-- Witness for C8: congress 119, session 1, vote 15, year 2025. -/
theorem fileNames_amended_witness :
    senateVoteFileName 119 1 15 =
        specNamingConvention "senate_vote" (natDecimal 119) (natDecimal 1) (padZero 5 15) ∧
      (padZero 5 15).length = 5 :=
  ⟨(fileNames_amended 119 1 15 2025 (by norm_num) (by norm_num)).1,
    (fileNames_amended 119 1 15 2025 (by norm_num) (by norm_num)).2.2.2.2.1⟩

/-! ## Idempotence analysis of the name normalizer (C3) -/

theorem charOfNat_toNat {n : Nat} (h : n < 55296) : (Char.ofNat n).toNat = n := by
  unfold Char.ofNat
  rw [dif_pos (Or.inl h)]
  rfl

theorem pyLower_spec (c : Char) :
    ((65 ≤ c.toNat ∧ c.toNat ≤ 90 ∨
        192 ≤ c.toNat ∧ c.toNat ≤ 222 ∧ c.toNat ≠ 215) ∧
      (pyLower c).toNat = c.toNat + 32) ∨ pyLower c = c := by
  unfold pyLower
  split
  · next h => exact Or.inl ⟨Or.inl h, charOfNat_toNat (by omega)⟩
  · split
    · next h => exact Or.inl ⟨Or.inr h, charOfNat_toNat (by omega)⟩
    · exact Or.inr rfl

theorem pyIsSpace_iff (c : Char) : pyIsSpace c = true ↔
    (c.toNat = 32 ∨ (9 ≤ c.toNat ∧ c.toNat ≤ 13) ∨ (28 ≤ c.toNat ∧ c.toNat ≤ 31) ∨
      c.toNat = 133 ∨ c.toNat = 160 ∨ c.toNat = 5760 ∨
      (8192 ≤ c.toNat ∧ c.toNat ≤ 8202) ∨ c.toNat = 8232 ∨ c.toNat = 8233 ∨
      c.toNat = 8239 ∨ c.toNat = 8287 ∨ c.toNat = 12288) := by
  simp only [pyIsSpace, Bool.or_eq_true, Bool.and_eq_true, decide_eq_true_eq]
  tauto

theorem pyLower_idem (c : Char) : pyLower (pyLower c) = pyLower c := by
  rcases pyLower_spec c with ⟨hr, hv⟩ | hfix
  · rcases pyLower_spec (pyLower c) with ⟨hr2, _⟩ | hfix2
    · exfalso
      omega
    · exact hfix2
  · rw [hfix]
    exact hfix

theorem pyLower_space_iff (c : Char) : pyIsSpace (pyLower c) = pyIsSpace c := by
  rcases pyLower_spec c with ⟨hr, hv⟩ | hfix
  · rw [Bool.eq_iff_iff, pyIsSpace_iff, pyIsSpace_iff]
    omega
  · rw [hfix]

theorem char_toNat_space : (' ' : Char).toNat = 32 := rfl

theorem pyLower_eq_space_iff (c : Char) : pyLower c = ' ' ↔ c = ' ' := by
  rcases pyLower_spec c with ⟨hr, hv⟩ | hfix
  · constructor
    · intro h
      exfalso
      rw [h, char_toNat_space] at hv
      omega
    · intro h
      exfalso
      rw [h, char_toNat_space] at hr
      omega
  · rw [hfix]

theorem char_toNat_lparen : ('(' : Char).toNat = 40 := rfl

theorem char_toNat_rparen : (')' : Char).toNat = 41 := rfl

theorem pyLower_eq_lparen_iff (c : Char) : pyLower c = '(' ↔ c = '(' := by
  rcases pyLower_spec c with ⟨hr, hv⟩ | hfix
  · constructor
    · intro h
      exfalso
      rw [h, char_toNat_lparen] at hv
      omega
    · intro h
      exfalso
      rw [h, char_toNat_lparen] at hr
      omega
  · rw [hfix]

theorem pyLower_eq_rparen_iff (c : Char) : pyLower c = ')' ↔ c = ')' := by
  rcases pyLower_spec c with ⟨hr, hv⟩ | hfix
  · constructor
    · intro h
      exfalso
      rw [h, char_toNat_rparen] at hv
      omega
    · intro h
      exfalso
      rw [h, char_toNat_rparen] at hr
      omega
  · rw [hfix]

theorem splitClose_subset : ∀ l r, splitClose l = some r → ∀ c ∈ r, c ∈ l := by
  intro l
  induction l with
  | nil => intro r h; exact absurd h (by simp [splitClose])
  | cons d rest ih =>
    intro r h c hc
    simp only [splitClose] at h
    split at h
    · cases h
      exact List.mem_cons_of_mem d hc
    · split at h
      · exact absurd h (by simp)
      · exact List.mem_cons_of_mem d (ih r h c hc)

theorem splitClose_length : ∀ l r, splitClose l = some r → r.length < l.length := by
  intro l
  induction l with
  | nil => intro r h; exact absurd h (by simp [splitClose])
  | cons d rest ih =>
    intro r h
    simp only [splitClose] at h
    split at h
    · cases h
      simp
    · split at h
      · exact absurd h (by simp)
      · have := ih r h
        simp only [List.length_cons]
        omega

theorem splitClose_nl_not_mem : ∀ l r, splitClose l = some r → '\n' ∉ l → '\n' ∉ r :=
  fun l r h hm hc => hm (splitClose_subset l r h '\n' hc)

theorem no_rparen_of_splitClose_none :
    ∀ l, '\n' ∉ l → splitClose l = none → ')' ∉ l := by
  intro l
  induction l with
  | nil => intro _ _; simp
  | cons d rest ih =>
    intro hnl h
    simp only [splitClose] at h
    split at h
    · exact absurd h (by simp)
    · next hd =>
      split at h
      · next hn =>
        exact absurd (hn ▸ List.mem_cons_self d rest) hnl
      · intro hmem
        rcases List.mem_cons.mp hmem with hd2 | hd2
        · exact hd hd2.symm
        · exact ih (fun hx => hnl (List.mem_cons_of_mem d hx)) h hd2

theorem splitClose_none_of_no_rparen : ∀ l, ')' ∉ l → splitClose l = none := by
  intro l
  induction l with
  | nil => simp [splitClose]
  | cons d rest ih =>
    intro h
    simp only [splitClose]
    have hd : ¬ d = ')' := fun hx => h (hx ▸ List.mem_cons_self d rest)
    rw [if_neg hd]
    split
    · rfl
    · exact ih (fun hx => h (List.mem_cons_of_mem d hx))

theorem noPair_of_no_rparen : ∀ l, ')' ∉ l → noPair l := by
  intro l
  induction l with
  | nil => intro _; trivial
  | cons d rest ih =>
    intro h
    simp only [noPair]
    split
    · exact fun hx => h (List.mem_cons_of_mem d hx)
    · exact ih (fun hx => h (List.mem_cons_of_mem d hx))

theorem rpAux_subset : ∀ (fuel : Nat) (l : List Char), ∀ c ∈ rpAux fuel l, c ∈ l := by
  intro fuel
  induction fuel with
  | zero =>
    intro l c hc
    cases l with
    | nil => exact absurd hc (by simp [rpAux])
    | cons d rest => exact hc
  | succ fuel ih =>
    intro l c hc
    cases l with
    | nil => exact absurd hc (by simp [rpAux])
    | cons d rest =>
      simp only [rpAux] at hc
      split at hc
      · split at hc
        · next heq =>
          exact List.mem_cons_of_mem d
            (splitClose_subset rest _ heq c (ih _ c hc))
        · rcases List.mem_cons.mp hc with h | h
          · exact h ▸ List.mem_cons_self d rest
          · exact List.mem_cons_of_mem d (ih rest c h)
      · rcases List.mem_cons.mp hc with h | h
        · exact h ▸ List.mem_cons_self d rest
        · exact List.mem_cons_of_mem d (ih rest c h)

theorem rpAux_noPair : ∀ (fuel : Nat) (l : List Char),
    l.length ≤ fuel → '\n' ∉ l → noPair (rpAux fuel l) := by
  intro fuel
  induction fuel with
  | zero =>
    intro l hlen _
    have : l = [] := List.length_eq_zero.mp (by omega)
    subst this
    trivial
  | succ fuel ih =>
    intro l hlen hnl
    cases l with
    | nil => trivial
    | cons d rest =>
      have hnlr : '\n' ∉ rest := fun hx => hnl (List.mem_cons_of_mem d hx)
      simp only [rpAux]
      split
      · next hd =>
        split
        · next heq =>
          exact ih _ (by
            have := splitClose_length rest _ heq
            simp only [List.length_cons] at hlen
            omega) (splitClose_nl_not_mem rest _ heq hnlr)
        · next heq =>
          have hnr : ')' ∉ rest := no_rparen_of_splitClose_none rest hnlr heq
          simp only [noPair]
          rw [if_pos hd]
          intro hmem
          exact hnr (rpAux_subset fuel rest ')' hmem)
      · next hd =>
        simp only [noPair]
        rw [if_neg hd]
        exact ih rest (by simp only [List.length_cons] at hlen; omega) hnlr

theorem rpAux_of_noPair : ∀ (fuel : Nat) (l : List Char), noPair l → rpAux fuel l = l := by
  intro fuel
  induction fuel with
  | zero =>
    intro l _
    cases l <;> rfl
  | succ fuel ih =>
    intro l h
    cases l with
    | nil => rfl
    | cons d rest =>
      simp only [rpAux]
      simp only [noPair] at h
      split
      · next hd =>
        rw [if_pos hd] at h
        rw [splitClose_none_of_no_rparen rest h]
        rw [ih rest (noPair_of_no_rparen rest h)]
      · next hd =>
        rw [if_neg hd] at h
        rw [ih rest h]

theorem removeParens_of_noPair (l : List Char) (h : noPair l) : removeParens l = l :=
  rpAux_of_noPair l.length l h

theorem noPair_tail {c : Char} {l : List Char} (h : noPair (c :: l)) : noPair l := by
  simp only [noPair] at h
  split at h
  · exact noPair_of_no_rparen l h
  · exact h

theorem noPair_sublist : ∀ {l1 l2 : List Char}, l1.Sublist l2 → noPair l2 → noPair l1 := by
  intro l1 l2 h
  induction h with
  | slnil => intro _; trivial
  | cons a _ ih => intro h2; exact ih (noPair_tail h2)
  | cons₂ a hsub ih =>
    intro h2
    simp only [noPair] at h2 ⊢
    split
    · next ha =>
      rw [if_pos ha] at h2
      exact fun hx => h2 (hsub.subset hx)
    · next ha =>
      rw [if_neg ha] at h2
      exact ih h2

theorem noPair_map {g : Char → Char} (hg1 : ∀ c, g c = '(' ↔ c = '(')
    (hg2 : ∀ c, g c = ')' → c = ')') :
    ∀ l, noPair l → noPair (l.map g) := by
  intro l
  induction l with
  | nil => intro _; trivial
  | cons d rest ih =>
    intro h
    simp only [List.map_cons, noPair]
    split
    · next hgd =>
      have hd : d = '(' := (hg1 d).mp hgd
      simp only [noPair] at h
      rw [if_pos hd] at h
      intro hmem
      obtain ⟨e, he, hge⟩ := List.mem_map.mp hmem
      exact h ((hg2 e hge) ▸ he)
    · next hgd =>
      have hd : ¬ d = '(' := fun hx => hgd ((hg1 d).mpr hx)
      simp only [noPair] at h
      rw [if_neg hd] at h
      exact ih h

theorem noPair_wsmap (l : List Char) (h : noPair l) : noPair (wsmap l) := by
  refine noPair_map ?_ ?_ l h
  · intro c
    by_cases hws : pyIsSpace c
    · simp only [if_pos hws]
      constructor
      · intro hx; exact absurd hx (by decide)
      · intro hx
        subst hx
        exact absurd hws (by decide)
    · simp only [if_neg hws]
  · intro c
    by_cases hws : pyIsSpace c
    · simp only [if_pos hws]
      intro hx; exact absurd hx (by decide)
    · simp only [if_neg hws]
      exact id

theorem squeeze_sublist : ∀ l : List Char, (squeeze l).Sublist l
  | [] => List.Sublist.refl []
  | [c] => List.Sublist.refl [c]
  | a :: b :: rest => by
    simp only [squeeze]
    split
    · exact (squeeze_sublist (b :: rest)).cons a
    · exact (squeeze_sublist (b :: rest)).cons₂ a

theorem squeeze_head : ∀ (rest : List Char) (a : Char),
    (squeeze (a :: rest)).head? = some a
  | [], _ => rfl
  | b :: r, a => by
    simp only [squeeze]
    split
    · next hcond =>
      rw [squeeze_head r b]
      simp only [Bool.and_eq_true, decide_eq_true_eq] at hcond
      rw [hcond.1, hcond.2]
    · rfl

theorem noAdj_squeeze : ∀ l : List Char, noAdj (squeeze l)
  | [] => trivial
  | [_] => trivial
  | a :: b :: rest => by
    simp only [squeeze]
    split
    · exact noAdj_squeeze (b :: rest)
    · next hcond =>
      rcases hs : squeeze (b :: rest) with _ | ⟨b2, t⟩
      · trivial
      · have hh := squeeze_head rest b
        rw [hs] at hh
        simp only [List.head?_cons, Option.some_inj] at hh
        rw [hh] at hs
        rw [hh]
        have hn := noAdj_squeeze (b :: rest)
        rw [hs] at hn
        refine ⟨?_, hn⟩
        intro hab
        rw [hab.1, hab.2] at hcond
        simp at hcond

theorem wsmap_mem {c : Char} {l : List Char} (h : c ∈ wsmap l) :
    c = ' ' ∨ (c ∈ l ∧ pyIsSpace c = false) := by
  obtain ⟨d, hd, rfl⟩ := List.mem_map.mp h
  by_cases hws : pyIsSpace d
  · left
    simp [hws]
  · right
    refine ⟨by simpa [hws] using hd, ?_⟩
    simp only [if_neg hws]
    exact Bool.not_eq_true _ ▸ eq_false_of_ne_true hws

theorem onlyPlainWs_wsmap (l : List Char) : onlyPlainWs (wsmap l) := by
  intro c hc hws
  rcases wsmap_mem hc with h | ⟨_, hnw⟩
  · exact h
  · rw [hws] at hnw
    cases hnw

theorem dropLeading_sublist : ∀ l : List Char, (dropLeading l).Sublist l
  | [] => List.Sublist.refl []
  | c :: rest => by
    simp only [dropLeading]
    split
    · exact (dropLeading_sublist rest).cons c
    · exact List.Sublist.refl _

theorem noLeadWs_dropLeading : ∀ l : List Char, noLeadWs (dropLeading l)
  | [] => trivial
  | c :: rest => by
    simp only [dropLeading]
    split
    · exact noLeadWs_dropLeading rest
    · next h =>
      simp only [noLeadWs]
      cases hb : pyIsSpace c
      · rfl
      · exact absurd hb h

theorem noAdj_tail {c : Char} {l : List Char} (h : noAdj (c :: l)) : noAdj l := by
  cases l
  · trivial
  · exact h.2

theorem noAdj_dropLeading : ∀ l : List Char, noAdj l → noAdj (dropLeading l)
  | [] => fun h => h
  | c :: rest => by
    intro h
    simp only [dropLeading]
    split
    · exact noAdj_dropLeading rest (noAdj_tail h)
    · exact h

theorem dropTrailing_sublist : ∀ l : List Char, (dropTrailing l).Sublist l
  | [] => List.Sublist.refl []
  | c :: rest => by
    rcases hs : dropTrailing rest with _ | ⟨d, t⟩
    · simp only [dropTrailing, hs]
      split
      · exact List.nil_sublist _
      · exact (List.nil_sublist rest).cons₂ c
    · simp only [dropTrailing, hs]
      have ht := dropTrailing_sublist rest
      rw [hs] at ht
      exact ht.cons₂ c

theorem dropTrailing_head : ∀ (l : List Char) (d : Char) (t : List Char),
    dropTrailing l = d :: t → l.head? = some d
  | [] => by
    intro d t h
    exact absurd h (by simp [dropTrailing])
  | c :: rest => by
    intro d t h
    rcases hs : dropTrailing rest with _ | ⟨d2, t2⟩
    · simp only [dropTrailing, hs] at h
      split at h
      · exact absurd h (by simp)
      · injection h with h1 _
        rw [h1]
        rfl
    · simp only [dropTrailing, hs] at h
      injection h with h1 _
      rw [h1]
      rfl

theorem noTrailWs_dropTrailing : ∀ l : List Char, noTrailWs (dropTrailing l)
  | [] => trivial
  | c :: rest => by
    rcases hs : dropTrailing rest with _ | ⟨d, t⟩
    · simp only [dropTrailing, hs]
      split
      · trivial
      · next h =>
        simp only [noTrailWs]
        cases hb : pyIsSpace c
        · rfl
        · exact absurd hb h
    · simp only [dropTrailing, hs]
      have ht := noTrailWs_dropTrailing rest
      rw [hs] at ht
      exact ht

theorem noAdj_dropTrailing : ∀ l : List Char, noAdj l → noAdj (dropTrailing l)
  | [] => fun h => h
  | c :: rest => by
    intro h
    rcases hs : dropTrailing rest with _ | ⟨d, t⟩
    · simp only [dropTrailing, hs]
      split
      · trivial
      · trivial
    · simp only [dropTrailing, hs]
      have ht := noAdj_dropTrailing rest (noAdj_tail h)
      rw [hs] at ht
      refine ⟨?_, ht⟩
      have hd := dropTrailing_head rest d t hs
      cases rest with
      | nil => simp [dropTrailing] at hs
      | cons e rest2 =>
        simp only [List.head?_cons, Option.some_inj] at hd
        subst hd
        exact h.1

theorem noLeadWs_dropTrailing : ∀ l : List Char, noLeadWs l → noLeadWs (dropTrailing l)
  | [] => fun h => h
  | c :: rest => by
    intro h
    rcases hs : dropTrailing rest with _ | ⟨d, t⟩
    · simp only [dropTrailing, hs]
      split
      · trivial
      · exact h
    · simp only [dropTrailing, hs]
      exact h

theorem onlyPlainWs_toLowerL (l : List Char) (h : onlyPlainWs l) :
    onlyPlainWs (toLowerL l) := by
  intro c hc hws
  obtain ⟨d, hd, rfl⟩ := List.mem_map.mp hc
  rw [pyLower_space_iff] at hws
  rw [h d hd hws]
  decide

theorem noAdj_toLowerL : ∀ l : List Char, noAdj l → noAdj (toLowerL l)
  | [] => fun h => h
  | [c] => fun _ => trivial
  | a :: b :: rest => by
    intro h
    simp only [toLowerL, List.map_cons]
    refine ⟨?_, ?_⟩
    · intro hab
      simp only [pyLower_eq_space_iff] at hab
      exact h.1 hab
    · have := noAdj_toLowerL (b :: rest) h.2
      simpa [toLowerL] using this

theorem noLeadWs_toLowerL (l : List Char) (h : noLeadWs l) : noLeadWs (toLowerL l) := by
  cases l with
  | nil => trivial
  | cons c rest =>
    simp only [toLowerL, List.map_cons, noLeadWs]
    rw [pyLower_space_iff]
    exact h

theorem noTrailWs_toLowerL : ∀ l : List Char, noTrailWs l → noTrailWs (toLowerL l)
  | [] => fun h => h
  | [c] => by
    intro h
    simp only [toLowerL, List.map_cons, List.map_nil, noTrailWs]
    rw [pyLower_space_iff]
    exact h
  | a :: b :: rest => by
    intro h
    have := noTrailWs_toLowerL (b :: rest) h
    simpa [toLowerL] using this

theorem noPair_toLowerL (l : List Char) (h : noPair l) : noPair (toLowerL l) :=
  noPair_map pyLower_eq_lparen_iff (fun c => (pyLower_eq_rparen_iff c).mp) l h

theorem allLower_toLowerL (l : List Char) : allLower (toLowerL l) := by
  intro c hc
  obtain ⟨d, _, rfl⟩ := List.mem_map.mp hc
  exact pyLower_idem d

theorem uniChar_ascii {c : Char} (h : c.toNat < 128) : uniChar c = [c] := by
  unfold uniChar
  rw [if_pos h]

theorem uniTable_entries : ∀ p ∈ uniTable, '(' ∉ p.2 ∧ ')' ∉ p.2 := by decide

theorem uniChar_no_parens (c : Char) (h : 128 ≤ c.toNat) :
    '(' ∉ uniChar c ∧ ')' ∉ uniChar c := by
  unfold uniChar
  rw [if_neg (by omega)]
  cases hf : uniTable.find? (fun p => p.1 = c) with
  | none => exact ⟨by simp, by simp⟩
  | some p => exact uniTable_entries p (List.mem_of_find?_eq_some hf)

theorem uniChar_lparen {c : Char} (h : '(' ∈ uniChar c) : c = '(' := by
  by_cases ha : c.toNat < 128
  · rw [uniChar_ascii ha] at h
    exact (List.mem_singleton.mp h).symm
  · exact absurd h (uniChar_no_parens c (by omega)).1

theorem uniChar_rparen {c : Char} (h : ')' ∈ uniChar c) : c = ')' := by
  by_cases ha : c.toNat < 128
  · rw [uniChar_ascii ha] at h
    exact (List.mem_singleton.mp h).symm
  · exact absurd h (uniChar_no_parens c (by omega)).2

theorem mem_uniL {e : Char} : ∀ {l : List Char}, e ∈ uniL l ↔ ∃ d ∈ l, e ∈ uniChar d := by
  intro l
  induction l with
  | nil => simp [uniL]
  | cons d rest ih =>
    simp only [uniL, List.mem_append, ih, List.mem_cons]
    constructor
    · rintro (h | ⟨d2, hd2, he⟩)
      · exact ⟨d, Or.inl rfl, h⟩
      · exact ⟨d2, Or.inr hd2, he⟩
    · rintro ⟨d2, hd2 | hd2, he⟩
      · exact Or.inl (hd2 ▸ he)
      · exact Or.inr ⟨d2, hd2, he⟩

theorem noPair_append_no_lparen : ∀ (a b : List Char), '(' ∉ a →
    noPair b → noPair (a ++ b) := by
  intro a
  induction a with
  | nil => intro b _ hb; exact hb
  | cons x a2 ih =>
    intro b hx hb
    simp only [List.cons_append, noPair]
    rw [if_neg (fun he : x = '(' => hx (he ▸ List.mem_cons_self x a2))]
    exact ih b (fun hm => hx (List.mem_cons_of_mem x hm)) hb

theorem noPair_uniL : ∀ l : List Char, noPair l → noPair (uniL l) := by
  intro l
  induction l with
  | nil => intro _; trivial
  | cons d rest ih =>
    intro h
    simp only [uniL]
    by_cases hd : d = '('
    · subst hd
      rw [uniChar_ascii (by decide)]
      simp only [List.singleton_append, noPair, if_pos rfl]
      simp only [noPair, if_pos rfl] at h
      intro hmem
      obtain ⟨d2, hd2, he⟩ := mem_uniL.mp hmem
      exact h ((uniChar_rparen he) ▸ hd2)
    · refine noPair_append_no_lparen _ _ ?_ (ih (noPair_tail h))
      intro hmem
      exact hd (uniChar_lparen hmem)

theorem space_block : uniChar ' ' = [' '] := uniChar_ascii (by decide)

theorem uniGood_block {d : Char} (h : uniGood d = true) :
    uniChar d ≠ [] ∧ ∀ e ∈ uniChar d,
      e.toNat < 128 ∧ pyIsSpace e = false ∧ pyLower e = e := by
  unfold uniGood at h
  rw [Bool.and_eq_true] at h
  obtain ⟨hne, hall⟩ := h
  refine ⟨?_, ?_⟩
  · intro hnil
    rw [hnil] at hne
    simp at hne
  · intro e he
    have := List.all_eq_true.mp hall e he
    unfold uniGoodChar at this
    simp only [Bool.and_eq_true, Bool.not_eq_true', decide_eq_true_eq] at this
    exact ⟨this.1.1, this.1.2, this.2⟩

theorem uniL_ne_nil : ∀ l : List Char, (∀ d ∈ l, d = ' ' ∨ uniGood d = true) →
    l ≠ [] → uniL l ≠ []
  | [] => fun _ h => absurd rfl h
  | d :: rest => by
    intro htG _
    simp only [uniL]
    intro hnil
    have hu := (List.append_eq_nil.mp hnil).1
    rcases htG d (List.mem_cons_self d rest) with hd | hd
    · rw [hd, space_block] at hu
      exact absurd hu (by simp)
    · exact (uniGood_block hd).1 hu

theorem noAdj_append_left_nonspace :
    ∀ (a b : List Char), (∀ e ∈ a, ¬ e = ' ') → noAdj b → noAdj (a ++ b)
  | [], b => fun _ hb => by simpa using hb
  | [x], b => by
    intro ha hb
    simp only [List.singleton_append]
    cases b with
    | nil => trivial
    | cons e t =>
      exact ⟨fun hand => ha x (List.mem_cons_self x []) hand.1, hb⟩
  | x :: y :: a2, b => by
    intro ha hb
    simp only [List.cons_append]
    refine ⟨fun hand => ha x (List.mem_cons_self _ _) hand.1, ?_⟩
    have := noAdj_append_left_nonspace (y :: a2) b
      (fun e he => ha e (List.mem_cons_of_mem x he)) hb
    simpa using this

theorem noAdj_uniL : ∀ l : List Char, (∀ d ∈ l, d = ' ' ∨ uniGood d = true) → noAdj l →
    noAdj (uniL l) ∧ ∀ t, uniL l = ' ' :: t → l.head? = some ' '
  | [] => by
    intro _ _
    refine ⟨trivial, ?_⟩
    intro t h
    simp [uniL] at h
  | d :: rest => by
    intro htG hA
    have htGr : ∀ x ∈ rest, x = ' ' ∨ uniGood x = true :=
      fun x hx => htG x (List.mem_cons_of_mem d hx)
    obtain ⟨ihA, ihH⟩ := noAdj_uniL rest htGr (noAdj_tail hA)
    rcases htG d (List.mem_cons_self d rest) with hd | hd
    · subst hd
      have hrw : uniL (' ' :: rest) = ' ' :: uniL rest := by
        simp [uniL, space_block]
      rw [hrw]
      constructor
      · rcases hu : uniL rest with _ | ⟨e, t⟩
        · trivial
        · refine ⟨?_, by rw [← hu]; exact ihA⟩
          intro hand
          have hh := ihH t (by rw [hu, hand.2])
          cases rest with
          | nil => simp at hh
          | cons r0 r2 =>
            simp only [List.head?_cons, Option.some_inj] at hh
            exact hA.1 ⟨rfl, hh⟩
      · intro t _
        rfl
    · obtain ⟨hne, hall⟩ := uniGood_block hd
      constructor
      · simp only [uniL]
        refine noAdj_append_left_nonspace _ _ ?_ ihA
        intro e he hsp
        subst hsp
        exact absurd (hall ' ' he).2.1 (by decide)
      · intro t ht
        rcases hu : uniChar d with _ | ⟨e0, A2⟩
        · exact absurd hu hne
        · rw [show uniL (d :: rest) = uniChar d ++ uniL rest from rfl, hu] at ht
          simp only [List.cons_append, List.cons.injEq] at ht
          have he0 := (hall e0 (by rw [hu]; exact List.mem_cons_self _ _)).2.1
          rw [ht.1] at he0
          exact absurd he0 (by decide)

theorem onlyPlainWs_uniL (l : List Char)
    (htG : ∀ d ∈ l, d = ' ' ∨ uniGood d = true) : onlyPlainWs (uniL l) := by
  intro e he hws
  obtain ⟨d, hd, hed⟩ := mem_uniL.mp he
  rcases htG d hd with h | h
  · rw [h, space_block] at hed
    exact List.mem_singleton.mp hed
  · have := ((uniGood_block h).2 e hed).2.1
    rw [hws] at this
    cases this

theorem allLower_uniL (l : List Char)
    (htG : ∀ d ∈ l, d = ' ' ∨ uniGood d = true) : allLower (uniL l) := by
  intro e he
  obtain ⟨d, hd, hed⟩ := mem_uniL.mp he
  rcases htG d hd with h | h
  · rw [h, space_block] at hed
    rw [List.mem_singleton.mp hed]
    decide
  · exact ((uniGood_block h).2 e hed).2.2

theorem allAscii_uniL (l : List Char)
    (htG : ∀ d ∈ l, d = ' ' ∨ uniGood d = true) : allAscii (uniL l) := by
  intro e he
  obtain ⟨d, hd, hed⟩ := mem_uniL.mp he
  rcases htG d hd with h | h
  · rw [h, space_block] at hed
    rw [List.mem_singleton.mp hed]
    decide
  · exact ((uniGood_block h).2 e hed).1

theorem noLeadWs_uniL (l : List Char)
    (htG : ∀ d ∈ l, d = ' ' ∨ uniGood d = true) (h : noLeadWs l) :
    noLeadWs (uniL l) := by
  cases l with
  | nil => trivial
  | cons d rest =>
    rcases htG d (List.mem_cons_self d rest) with hd | hd
    · subst hd
      exact absurd h (by simp [noLeadWs]; decide)
    · obtain ⟨hne, hall⟩ := uniGood_block hd
      rcases hu : uniChar d with _ | ⟨e0, A2⟩
      · exact absurd hu hne
      · rw [show uniL (d :: rest) = uniChar d ++ uniL rest from rfl, hu]
        simp only [List.cons_append, noLeadWs]
        exact (hall e0 (by rw [hu]; exact List.mem_cons_self _ _)).2.1

theorem noTrailWs_append : ∀ (a b : List Char), b ≠ [] →
    (noTrailWs (a ++ b) ↔ noTrailWs b)
  | [], b => by simp
  | x :: a2, b => by
    intro hb
    have hne : a2 ++ b ≠ [] := fun hx => hb (List.append_eq_nil.mp hx).2
    obtain ⟨c, t, hct⟩ := List.exists_cons_of_ne_nil hne
    rw [List.cons_append, hct]
    rw [show noTrailWs (x :: c :: t) = noTrailWs (c :: t) from rfl, ← hct]
    exact noTrailWs_append a2 b hb

theorem noTrailWs_of_nonspace : ∀ l : List Char,
    (∀ e ∈ l, pyIsSpace e = false) → noTrailWs l
  | [] => fun _ => trivial
  | [c] => fun h => h c (List.mem_cons_self c [])
  | a :: b :: rest => fun h =>
    noTrailWs_of_nonspace (b :: rest) (fun e he => h e (List.mem_cons_of_mem a he))

theorem noTrailWs_uniL : ∀ l : List Char,
    (∀ d ∈ l, d = ' ' ∨ uniGood d = true) → noTrailWs l → noTrailWs (uniL l)
  | [] => fun _ _ => trivial
  | d :: rest => by
    intro htG hT
    cases rest with
    | nil =>
      rcases htG d (List.mem_cons_self d []) with hd | hd
      · subst hd
        rw [show noTrailWs [' '] = (pyIsSpace ' ' = false) from rfl] at hT
        exact absurd hT (by decide)
      · obtain ⟨hne, hall⟩ := uniGood_block hd
        have hrw : uniL [d] = uniChar d := by simp [uniL]
        rw [hrw]
        exact noTrailWs_of_nonspace _ (fun e he => (hall e he).2.1)
    | cons r rs =>
      have hbne : uniL (r :: rs) ≠ [] :=
        uniL_ne_nil (r :: rs) (fun x hx => htG x (List.mem_cons_of_mem d hx)) (by simp)
      rw [show uniL (d :: r :: rs) = uniChar d ++ uniL (r :: rs) from rfl,
        noTrailWs_append _ _ hbne]
      exact noTrailWs_uniL (r :: rs) (fun x hx => htG x (List.mem_cons_of_mem d hx)) hT

theorem wsmap_of_onlyPlainWs : ∀ l : List Char, onlyPlainWs l → wsmap l = l
  | [] => fun _ => rfl
  | c :: rest => by
    intro h
    simp only [wsmap, List.map_cons]
    have h1 : (if pyIsSpace c = true then ' ' else c) = c := by
      split
      · next hws => exact (h c (List.mem_cons_self c rest) hws).symm
      · rfl
    rw [h1]
    have h2 := wsmap_of_onlyPlainWs rest
      (fun e he hw => h e (List.mem_cons_of_mem c he) hw)
    simp only [wsmap] at h2
    rw [h2]

theorem squeeze_of_noAdj : ∀ l : List Char, noAdj l → squeeze l = l
  | [] => fun _ => rfl
  | [_] => fun _ => rfl
  | a :: b :: rest => by
    intro h
    have hc : ¬ ((a = ' ' && b = ' ') = true) := by
      simp only [Bool.and_eq_true, decide_eq_true_eq]
      exact h.1
    simp only [squeeze]
    rw [if_neg hc, squeeze_of_noAdj (b :: rest) h.2]

theorem dropLeading_of_noLeadWs : ∀ l : List Char, noLeadWs l → dropLeading l = l
  | [] => fun _ => rfl
  | c :: rest => by
    intro h
    rw [show noLeadWs (c :: rest) = (pyIsSpace c = false) from rfl] at h
    simp only [dropLeading]
    rw [if_neg (by rw [h]; simp)]

theorem dropTrailing_of_noTrailWs : ∀ l : List Char, noTrailWs l → dropTrailing l = l
  | [] => fun _ => rfl
  | [c] => by
    intro h
    rw [show noTrailWs [c] = (pyIsSpace c = false) from rfl] at h
    simp [dropTrailing, h]
  | a :: b :: rest => by
    intro h
    have hIH := dropTrailing_of_noTrailWs (b :: rest) h
    rw [show dropTrailing (a :: b :: rest) =
        (match dropTrailing (b :: rest) with
         | [] => if pyIsSpace a then [] else [a]
         | r => a :: r) from rfl, hIH]

theorem toLowerL_of_allLower : ∀ l : List Char, allLower l → toLowerL l = l
  | [] => fun _ => rfl
  | c :: rest => by
    intro h
    simp only [toLowerL, List.map_cons]
    rw [h c (List.mem_cons_self c rest)]
    have h2 := toLowerL_of_allLower rest (fun e he => h e (List.mem_cons_of_mem c he))
    simp only [toLowerL] at h2
    rw [h2]

theorem uniL_of_allAscii : ∀ l : List Char, allAscii l → uniL l = l
  | [] => fun _ => rfl
  | c :: rest => by
    intro h
    simp only [uniL]
    rw [uniChar_ascii (h c (List.mem_cons_self c rest)),
      uniL_of_allAscii rest (fun e he => h e (List.mem_cons_of_mem c he))]
    rfl

/-- A character list satisfying all normal-form predicates is a fixed
point of the whole cleaning chain. -/
theorem normalizeName_fix (l : List Char) (h1 : noPair l) (h2 : onlyPlainWs l)
    (h3 : noAdj l) (h4 : noLeadWs l) (h5 : noTrailWs l) (h6 : allLower l)
    (h7 : allAscii l) : normalizeName ⟨l⟩ = ⟨l⟩ := by
  unfold normalizeName collapseWs pyStripL
  rw [show (String.mk l).data = l from rfl]
  rw [removeParens_of_noPair l h1, wsmap_of_onlyPlainWs l h2, squeeze_of_noAdj l h3,
    dropLeading_of_noLeadWs l h4, dropTrailing_of_noTrailWs l h5,
    toLowerL_of_allLower l h6, uniL_of_allAscii l h7]

theorem mem_collapseWs {c : Char} {l : List Char} (h : c ∈ collapseWs l) :
    c = ' ' ∨ (c ∈ l ∧ pyIsSpace c = false) :=
  wsmap_mem ((squeeze_sublist (wsmap l)).subset h)

theorem mem_pyStripL {c : Char} {l : List Char} (h : c ∈ pyStripL l) : c ∈ l :=
  (dropLeading_sublist l).subset ((dropTrailing_sublist (dropLeading l)).subset h)

/-- C3 (counterexample): the cleaning chain is not idempotent — the
parenthetical-removal regex cannot match across a newline, but the
subsequent whitespace collapse turns the newline into a space, so a
second pass removes a parenthetical the first pass left in place:
`normalize("(a\nb)") = "(a b)"` while `normalize("(a b)") = ""`. -/
theorem normalizeName_idem_cex :
    normalizeName (normalizeName "(a\nb)") ≠ normalizeName "(a\nb)" := by decide

/-- C3 (amended): the normalizer is idempotent on every name that
contains no newline and whose characters lowercase-transliterate to
non-empty, non-whitespace ASCII (all ASCII characters and the accented
Latin-1 letters qualify; whitespace characters other than newline are
also fine).  A newline inside a parenthetical, or a character the
transliteration table drops or maps to whitespace, breaks idempotence. -/
theorem normalizeName_idem (s : String)
    (h : ∀ c ∈ s.data, c ≠ '\n' ∧ (pyIsSpace c = true ∨ uniGood (pyLower c) = true)) :
    normalizeName (normalizeName s) = normalizeName s := by
  have hnl : '\n' ∉ s.data := fun hm => (h _ hm).1 rfl
  have hrP : noPair (removeParens s.data) :=
    rpAux_noPair s.data.length s.data (Nat.le_refl _) hnl
  have hwP : noPair (collapseWs (removeParens s.data)) :=
    noPair_sublist (squeeze_sublist _) (noPair_wsmap _ hrP)
  have hwW : onlyPlainWs (collapseWs (removeParens s.data)) :=
    fun c hc => onlyPlainWs_wsmap _ c ((squeeze_sublist _).subset hc)
  have hwA : noAdj (collapseWs (removeParens s.data)) := noAdj_squeeze _
  have ht1P : noPair (pyStripL (collapseWs (removeParens s.data))) :=
    noPair_sublist (dropTrailing_sublist _) (noPair_sublist (dropLeading_sublist _) hwP)
  have ht1W : onlyPlainWs (pyStripL (collapseWs (removeParens s.data))) :=
    fun c hc => hwW c (mem_pyStripL hc)
  have ht1A : noAdj (pyStripL (collapseWs (removeParens s.data))) :=
    noAdj_dropTrailing _ (noAdj_dropLeading _ hwA)
  have ht1L : noLeadWs (pyStripL (collapseWs (removeParens s.data))) :=
    noLeadWs_dropTrailing _ (noLeadWs_dropLeading _)
  have ht1T : noTrailWs (pyStripL (collapseWs (removeParens s.data))) :=
    noTrailWs_dropTrailing _
  have htP : noPair (toLowerL (pyStripL (collapseWs (removeParens s.data)))) :=
    noPair_toLowerL _ ht1P
  have htW : onlyPlainWs (toLowerL (pyStripL (collapseWs (removeParens s.data)))) :=
    onlyPlainWs_toLowerL _ ht1W
  have htA : noAdj (toLowerL (pyStripL (collapseWs (removeParens s.data)))) :=
    noAdj_toLowerL _ ht1A
  have htL : noLeadWs (toLowerL (pyStripL (collapseWs (removeParens s.data)))) :=
    noLeadWs_toLowerL _ ht1L
  have htT : noTrailWs (toLowerL (pyStripL (collapseWs (removeParens s.data)))) :=
    noTrailWs_toLowerL _ ht1T
  have htG : ∀ d ∈ toLowerL (pyStripL (collapseWs (removeParens s.data))),
      d = ' ' ∨ uniGood d = true := by
    intro d hd
    simp only [toLowerL] at hd
    obtain ⟨e, he1, rfl⟩ := List.mem_map.mp hd
    rcases mem_collapseWs (mem_pyStripL he1) with he | ⟨hmem, hnw⟩
    · left
      rw [he]
      decide
    · have hmem2 : e ∈ s.data := rpAux_subset _ _ e hmem
      rcases (h e hmem2).2 with hws | hgood
      · rw [hws] at hnw
        cases hnw
      · right
        exact hgood
  have hNs : normalizeName s =
      ⟨uniL (toLowerL (pyStripL (collapseWs (removeParens s.data))))⟩ := rfl
  rw [hNs]
  exact normalizeName_fix _ (noPair_uniL _ htP) (onlyPlainWs_uniL _ htG)
    ((noAdj_uniL _ htG htA).1) (noLeadWs_uniL _ htG htL) (noTrailWs_uniL _ htG htT)
    (allLower_uniL _ htG) (allAscii_uniL _ htG)

/-- Witness for C3: an accented, parenthesized, padded display name. -/
theorem normalizeName_idem_witness :
    normalizeName (normalizeName "José  (D-NM) ") = normalizeName "José  (D-NM) " :=
  normalizeName_idem "José  (D-NM) " (by decide)

end VoteFetcher
